import Mathlib

/-!
Shallow embedding of the checksummed reader/writer pair of package brimutil
(checksummedReaderImpl / checksummedWriterImpl and their delegates).

Modelling conventions:
* Bytes are `Nat` (values < 256 in well-formed data); machine integers are
  `Nat`/`Int` with Go's truncated division written `Int.tdiv` / `Int.tmod`.
* The reader's underlying `io.ReadSeeker` is a seekable in-memory byte source
  with the semantics of Go's `bytes.Reader` (the canonical delegate used when
  a reader is bound to a finite byte sequence), or the poisoned `_ERR_DELEGATE`
  stand-in installed by `Close`.
* The writer's underlying `io.Writer` is an append-only sink that accepts every
  write, a sink that fails every write (to model sink errors), or the poisoned
  `_ERR_DELEGATE`.  Each writer operation returns the bytes that actually
  reached the underlying sink during the call, since the sink's contents
  outlive the writer.
* A `hash.Hash32` constructor is modelled as a function `List Nat → Nat`
  giving the 32-bit digest of the byte sequence fed to a freshly constructed
  instance; a live accumulator is represented by the list of bytes fed to it
  so far (streaming a hash is determined by the ingested bytes).
* `interval` is assumed nonnegative; the operations that divide by the
  interval (Seek) are only used with interval ≥ 1, as Go would panic on a
  division by zero.
-/

namespace Brimutil

/-- Error values distinguished by identity in the Go code. -/
inductive IoErr where
  | eof
  | unexpectedEof
  | closedErr
  | alreadyClosedErr
  | invalidWhence (w : Int)
  | delegateSeekErr
  | sinkErr
  deriving DecidableEq, Repr

/-- The reader's underlying `io.ReadSeeker`: an in-memory seekable source
(`bytes.Reader` semantics) or the poisoned `_ERR_DELEGATE`. -/
inductive RDelegate where
  | src (data : List Nat) (pos : Nat)
  | closedD
  deriving DecidableEq, Repr

/-- `delegate.Read(v)` with `len(v) = k`: returns the bytes copied, the error,
and the delegate afterwards.  `bytes.Reader.Read` reports `io.EOF` when the
position is at or past the end, and otherwise copies `min k remaining` bytes.
`_ERR_DELEGATE.Read` always fails with the closed error. -/
def rdRead : RDelegate → Nat → List Nat × Option IoErr × RDelegate
  | .src data pos, k =>
    if data.length ≤ pos then ([], some .eof, .src data pos)
    else ((data.drop pos).take k, none, .src data (pos + min k (data.length - pos)))
  | .closedD, _ => ([], some .closedErr, .closedD)

/-- `delegate.Seek(offset, whence)` with `bytes.Reader` semantics: a negative
computed position is an error that leaves the position unchanged; seeking past
the end is allowed.  `_ERR_DELEGATE.Seek` always fails with the closed error. -/
def rdSeek : RDelegate → Int → Nat → Int × Option IoErr × RDelegate
  | .src data pos, off, whence =>
    let abs : Int :=
      if whence = 0 then off
      else if whence = 1 then (pos : Int) + off
      else if whence = 2 then (data.length : Int) + off
      else -1
    if abs < 0 then (0, some .delegateSeekErr, .src data pos)
    else (abs, none, .src data abs.toNat)
  | .closedD, _, _ => (0, some .closedErr, .closedD)

/-- `io.ReadFull(delegate, buf)` with `len(buf) = k` over the source above:
returns the bytes read, the error (`io.EOF` when nothing was read,
`io.ErrUnexpectedEOF` when fewer than `k` bytes were available), and the
delegate afterwards. -/
def rdReadFull : RDelegate → Nat → List Nat × Option IoErr × RDelegate
  | .src data pos, k =>
    if k = 0 then ([], none, .src data pos)
    else if data.length ≤ pos then ([], some .eof, .src data pos)
    else if data.length - pos < k then
      ((data.drop pos).take k, some .unexpectedEof, .src data data.length)
    else ((data.drop pos).take k, none, .src data (pos + k))
  | .closedD, _ => ([], some .closedErr, .closedD)

/-- Closing the reader's delegate: the in-memory source is not an `io.Closer`
(no-op); the poisoned delegate reports the already-closed error. -/
def rdClose : RDelegate → Option IoErr
  | .src _ _ => none
  | .closedD => some .alreadyClosedErr

/-- State of `checksummedReaderImpl`: the delegate, the checksum interval and
the intra-block offset (`checksumOffset`).  The `newHash` function and the
4-byte scratch buffer carry no observable state across calls and are passed
to the operations that use them. -/
structure CRState where
  delegate : RDelegate
  checksumInterval : Nat
  checksumOffset : Nat
  deriving DecidableEq, Repr

/-- `newChecksummedReaderImpl` bound to a byte sequence at physical offset 0. -/
def newChecksummedReaderImpl (data : List Nat) (interval : Nat) : CRState :=
  ⟨.src data 0, interval, 0⟩

/-- Big-endian 4-byte encoding of the low 32 bits of a value,
as `binary.BigEndian.PutUint32` / the 32-bit `hash.Hash32.Sum`. -/
def be32 (x : Nat) : List Nat :=
  [x / 2 ^ 24 % 256, x / 2 ^ 16 % 256, x / 2 ^ 8 % 256, x % 256]

/-- `checksummedReaderImpl.Read` with a caller buffer of length `vLen`.
Returns the delivered content bytes (the first `n` bytes the caller sees,
where `n` is the returned count), the returned error, and the state
afterwards.  NOTE: in the `err == nil` branches the Go source declares a new
`err` with `n2, err := io.ReadFull(...)`, shadowing the function's return
value, so the `err = io.EOF` assignments there are dead stores and the
function returns a nil error on those paths; the model reproduces this. -/
def criRead (cri : CRState) (vLen : Nat) : List Nat × Option IoErr × CRState :=
  let vLen1 := if cri.checksumInterval < cri.checksumOffset + vLen
               then cri.checksumInterval - cri.checksumOffset else vLen
  let r0 := rdRead cri.delegate vLen1
  let got := r0.1
  let n := got.length
  let co1 := cri.checksumOffset + n
  if r0.2.1 = some .eof then
    (got.take (n - 4), some .eof, { cri with delegate := r0.2.2, checksumOffset := co1 })
  else if r0.2.1 = none then
    if co1 = cri.checksumInterval then
      let r1 := rdReadFull r0.2.2 4
      if r1.2.1 = some .eof ∨ r1.2.1 = some .unexpectedEof then
        (got.take (n - (4 - r1.1.length)), none,
          { cri with delegate := r1.2.2, checksumOffset := 0 })
      else
        (got, none, { cri with delegate := r1.2.2, checksumOffset := 0 })
    else
      let r1 := rdReadFull r0.2.2 4
      if r1.2.1 = some .eof ∨ r1.2.1 = some .unexpectedEof then
        (got.take (n - (4 - r1.1.length)), none,
          { cri with delegate := r1.2.2, checksumOffset := co1 })
      else
        let r2 := rdSeek r1.2.2 (-(r1.1.length : Int)) 1
        (got, none, { cri with delegate := r2.2.2, checksumOffset := co1 })
  else
    (got, r0.2.1, { cri with delegate := r0.2.2, checksumOffset := co1 })

/-- The closing arithmetic shared by every recognized whence of
`checksummedReaderImpl.Seek`: delegate an absolute seek to the forward-mapped
physical target, then report `o - (o / interval) * 4` and record
`o % (interval + 4)` as the new intra-block offset. -/
def seekFinish (cri : CRState) (offset : Int) : Int × Option IoErr × CRState :=
  let I : Int := (cri.checksumInterval : Int)
  let r := rdSeek cri.delegate (offset + Int.tdiv offset I * 4) 0
  let o := r.1
  (o - Int.tdiv o I * 4, r.2.1,
    { cri with delegate := r.2.2, checksumOffset := (Int.tmod o (I + 4)).toNat })

/-- `checksummedReaderImpl.Seek`. -/
def criSeek (cri : CRState) (offset : Int) (whence : Int) : Int × Option IoErr × CRState :=
  let I : Int := (cri.checksumInterval : Int)
  if whence = 0 then seekFinish cri offset
  else if whence = 1 then
    let r := rdSeek cri.delegate 0 1
    let o := r.1
    let cri1 := { cri with delegate := r.2.2, checksumOffset := (Int.tmod o (I + 4)).toNat }
    if r.2.1 ≠ none then (o - Int.tdiv o I * 4, r.2.1, cri1)
    else seekFinish cri1 (o - Int.tdiv o I * 4 + offset)
  else if whence = 2 then
    let r := rdSeek cri.delegate 0 2
    let o := r.1
    let cri1 := { cri with delegate := r.2.2, checksumOffset := (Int.tmod o (I + 4)).toNat }
    if r.2.1 ≠ none then (o - Int.tdiv o I * 4, r.2.1, cri1)
    else seekFinish cri1 (o - Int.tdiv o I * 4 + offset)
  else
    let r := rdSeek cri.delegate 0 1
    (r.1, some (.invalidWhence whence), { cri with delegate := r.2.2 })

/-- Result of `checksummedReaderImpl.Verify`: either a `(bool, error)` return
with the state afterwards, or a runtime panic (an out-of-range slice index). -/
inductive VerifyResult where
  | ret (verified : Bool) (err : Option IoErr) (st : CRState)
  | panicked
  deriving DecidableEq, Repr

/-- `checksummedReaderImpl.Verify`: save the position, rewind by the
intra-block offset, read up to `interval + 4` bytes, treat the last 4 bytes
read as the stored digest on a truncated read (`block[n-4 : n]`, which panics
when `n < 4`), compare against a fresh hash of the block bytes, and restore
the saved position. -/
def criVerify (newHash : List Nat → Nat) (cri : CRState) : VerifyResult :=
  let s0 := rdSeek cri.delegate 0 1
  let originalOffset := s0.1
  if s0.2.1 ≠ none then .ret false s0.2.1 { cri with delegate := s0.2.2 }
  else
    let s1 := if 0 < cri.checksumOffset
              then rdSeek s0.2.2 (-(cri.checksumOffset : Int)) 1
              else (0, none, s0.2.2)
    if s1.2.1 ≠ none then .ret false s1.2.1 { cri with delegate := s1.2.2 }
    else
      let rf := rdReadFull s1.2.2 (cri.checksumInterval + 4)
      let got := rf.1
      let n := got.length
      if rf.2.1 = some .unexpectedEof then
        if n < 4 then .panicked
        else
          let blockBytes := got.take (n - 4)
          let storedSum := got.drop (n - 4)
          let verified := storedSum == be32 (newHash blockBytes)
          let s2 := rdSeek rf.2.2 originalOffset 0
          .ret verified s2.2.1 { cri with delegate := s2.2.2 }
      else if rf.2.1 ≠ none then
        .ret false rf.2.1 { cri with delegate := rf.2.2 }
      else
        let blockBytes := got.take cri.checksumInterval
        let storedSum := got.drop cri.checksumInterval
        let verified := storedSum == be32 (newHash blockBytes)
        let s2 := rdSeek rf.2.2 originalOffset 0
        .ret verified s2.2.1 { cri with delegate := s2.2.2 }

/-- `checksummedReaderImpl.Close`: close the delegate if closable, then
replace it with the poisoned `_ERR_DELEGATE`. -/
def criClose (cri : CRState) : Option IoErr × CRState :=
  (rdClose cri.delegate, { cri with delegate := .closedD })

/-- The writer's underlying `io.Writer`: an append-only sink that accepts
every write, a sink that fails every write, or the poisoned `_ERR_DELEGATE`. -/
inductive WDelegate where
  | sinkD
  | failD
  | closedW
  deriving DecidableEq, Repr

/-- `delegate.Write(v)`: bytes-written count, error, and the bytes that
actually reached the underlying sink during the call. -/
def wdWrite : WDelegate → List Nat → Nat × Option IoErr × List Nat
  | .sinkD, v => (v.length, none, v)
  | .failD, _ => (0, some .sinkErr, [])
  | .closedW, _ => (0, some .closedErr, [])

/-- Closing the writer's delegate: the plain sinks are not `io.Closer`s
(no-op); the poisoned delegate reports the already-closed error. -/
def wdClose : WDelegate → Option IoErr
  | .sinkD => none
  | .failD => none
  | .closedW => some .alreadyClosedErr

/-- State of `checksummedWriterImpl`: the delegate, the interval, the
in-progress block byte count (`checksumOffset`) and the bytes fed to the live
hash accumulator since it was last created (`cur`). -/
structure CWState where
  delegate : WDelegate
  checksumInterval : Nat
  checksumOffset : Nat
  cur : List Nat
  deriving DecidableEq, Repr

/-- `newChecksummedWriterImpl` over a fresh accepting sink. -/
def newChecksummedWriterImpl (interval : Nat) : CWState :=
  ⟨.sinkD, interval, 0, []⟩

/-- The loop of `checksummedWriterImpl.Write`, with explicit fuel: one unit of
fuel per loop iteration plus one for the epilogue; `none` means the fuel ran
out, i.e. the call has not returned within that many iterations.  Returns the
count `n`, the error, the state afterwards, and the bytes that reached the
sink during the call. -/
def cwWriteF (newHash : List Nat → Nat) :
    Nat → CWState → List Nat → Nat → Option (Nat × Option IoErr × CWState × List Nat)
  | 0, _, _, _ => none
  | fuel + 1, st, v, n =>
    if st.checksumInterval ≤ st.checksumOffset + v.length then
      let chunk := v.take (st.checksumInterval - st.checksumOffset)
      let w1 := wdWrite st.delegate chunk
      let n1 := n + w1.1
      if w1.2.1 ≠ none then some (n1, w1.2.1, { st with delegate := .closedW }, w1.2.2)
      else
        let cur1 := st.cur ++ chunk
        let v1 := v.drop (st.checksumInterval - st.checksumOffset)
        let w2 := wdWrite st.delegate (be32 (newHash cur1))
        if w2.2.1 ≠ none then
          some (n1, w2.2.1, { st with delegate := .closedW, cur := cur1 }, w1.2.2 ++ w2.2.2)
        else
          match cwWriteF newHash fuel { st with checksumOffset := 0, cur := [] } v1 n1 with
          | none => none
          | some (nf, e, stf, em) => some (nf, e, stf, w1.2.2 ++ w2.2.2 ++ em)
    else
      if 0 < v.length then
        let w := wdWrite st.delegate v
        let n1 := n + w.1
        if w.2.1 ≠ none then some (n1, w.2.1, { st with delegate := .closedW }, w.2.2)
        else some (n1, none,
          { st with checksumOffset := st.checksumOffset + w.1, cur := st.cur ++ v }, w.2.2)
      else some (n, none, st, [])

/-- `checksummedWriterImpl.Write` with enough fuel for any terminating call
(each loop iteration consumes at least one input byte when the interval is
positive). -/
def cwWrite (newHash : List Nat → Nat) (st : CWState) (v : List Nat) :
    Option (Nat × Option IoErr × CWState × List Nat) :=
  cwWriteF newHash (v.length + 1) st v 0

/-- `checksummedWriterImpl.Close`: flush the digest of a pending partial
block, close the delegate if closable, and poison the writer. -/
def cwClose (newHash : List Nat → Nat) (st : CWState) : Option IoErr × CWState × List Nat :=
  if 0 < st.checksumOffset then
    let w := wdWrite st.delegate (be32 (newHash st.cur))
    if w.2.1 ≠ none then (w.2.1, { st with delegate := .closedW }, w.2.2)
    else (wdClose st.delegate, { st with delegate := .closedW }, w.2.2)
  else (wdClose st.delegate, { st with delegate := .closedW }, [])

/-- The on-wire layout produced by writing `v` and closing: content chopped
into `interval`-sized blocks, each block (the final one possibly shorter, but
never empty) followed by the big-endian digest of exactly its bytes. -/
def encode (newHash : List Nat → Nat) (I : Nat) (v : List Nat) : List Nat :=
  if hI : I = 0 then v
  else if hv : v = [] then []
  else if hlen : v.length ≤ I then v ++ be32 (newHash v)
  else v.take I ++ be32 (newHash (v.take I)) ++ encode newHash I (v.drop I)
termination_by v.length
decreasing_by
  simp only [List.length_drop]
  have h1 : I < v.length := Nat.not_le.mp hlen
  omega

/-- The bytes `Write` alone (without `Close`) emits for input `v` starting at
an empty in-progress block: every full block followed by its digest, with a
trailing partial block's bytes emitted but its digest still pending. -/
def emW (newHash : List Nat → Nat) (I : Nat) (v : List Nat) : List Nat :=
  if hI : I = 0 then v
  else if hlen : v.length < I then v
  else v.take I ++ be32 (newHash (v.take I)) ++ emW newHash I (v.drop I)
termination_by v.length
decreasing_by
  simp only [List.length_drop]
  have h1 : I ≤ v.length := Nat.not_lt.mp hlen
  rcases Nat.pos_of_ne_zero hI with h2
  omega

/-- Sequential read driver: call `Read` with a buffer of length `bufLen`,
collect the delivered bytes, and stop at the first non-nil error. -/
def readAll : Nat → CRState → Nat → List Nat
  | 0, _, _ => []
  | fuel + 1, st, bufLen =>
    let r := criRead st bufLen
    match r.2.1 with
    | none => r.1 ++ readAll fuel r.2.2 bufLen
    | some _ => r.1

/-- All bytes the underlying sink holds after writing `c` through a fresh
writer and closing it. -/
def writtenStream (newHash : List Nat → Nat) (I : Nat) (c : List Nat) : List Nat :=
  match cwWriteF newHash (c.length + 1) (newChecksummedWriterImpl I) c 0 with
  | none => []
  | some (_, _, st1, em1) => em1 ++ (cwClose newHash st1).2.2

/-- A concrete hash construction used by witnesses: a 31-ary polynomial hash
reduced mod 2^32. -/
def hPoly (bs : List Nat) : Nat :=
  List.foldl (fun a x => (a * 31 + x) % 2 ^ 32) 7 bs

/-- Forward logical-to-physical mapping, as in Seek's absolute-seek epilogue:
`physical = logical + (logical / interval) * 4`. -/
def logicalToPhysical (I L : Nat) : Nat := L + L / I * 4

/-- The reader's physical-to-logical translation exactly as implemented in
Seek (`o - o / interval * 4`, dividing by the interval). -/
def physicalToLogicalSeek (I p : Nat) : Nat := p - p / I * 4

/-- Modelled from the spec: the inverse mapping the specification prescribes,
`logical = physical - 4 * (physical / (interval + 4))`. -/
def physicalToLogicalSpec (I p : Nat) : Nat := p - 4 * (p / (I + 4))


theorem criVerify_src_full (newHash : List Nat → Nat) (data : List Nat) (start off I : Nat)
    (hr : I + 4 ≤ data.length - start) :
    criVerify newHash ⟨.src data (start + off), I, off⟩ =
      .ret ((((data.drop start).take (I + 4)).drop I)
              == be32 (newHash (((data.drop start).take (I + 4)).take I)))
        none ⟨.src data (start + off), I, off⟩ := by
  have h2 : ¬(data.length ≤ start) := by omega
  have h3 : ¬(data.length - start < I + 4) := by omega
  have h4 : ¬((start + off : Int) < 0) := by omega
  have h5 : ((start : Int) + (off : Int)) ⊔ 0 + -(off : Int) = (start : Int) := by omega
  have h6 : ¬((start : Int) < 0) := by omega
  have h7 : ((start : Int) + (off : Int)).toNat = start + off := by omega
  have h8 : ((start : Int)).toNat = start := by omega
  by_cases hoff : 0 < off
  · unfold criVerify rdSeek rdReadFull
    simp [h2, h3, h4, h5, h6, h7, h8, hoff]
  · have hz : off = 0 := by omega
    subst hz
    unfold criVerify rdSeek rdReadFull
    simp [h2, h3, h4, h6, h7, h8]

theorem criVerify_src_trunc (newHash : List Nat → Nat) (data : List Nat) (start off I : Nat)
    (hlo : 4 ≤ data.length - start) (hhi : data.length - start < I + 4) :
    criVerify newHash ⟨.src data (start + off), I, off⟩ =
      .ret (((data.drop start).drop (data.length - start - 4))
              == be32 (newHash ((data.drop start).take (data.length - start - 4))))
        none ⟨.src data (start + off), I, off⟩ := by
  have h2 : ¬(data.length ≤ start) := by omega
  have h4 : ¬((start + off : Int) < 0) := by omega
  have h5 : ((start : Int) + (off : Int)) ⊔ 0 + -(off : Int) = (start : Int) := by omega
  have h6 : ¬((start : Int) < 0) := by omega
  have h7 : ((start : Int) + (off : Int)).toNat = start + off := by omega
  have h8 : ((start : Int)).toNat = start := by omega
  have h9 : (data.drop start).length ≤ I + 4 := by
    simp only [List.length_drop]; omega
  have h10 : List.take (I + 4) (data.drop start) = data.drop start :=
    List.take_of_length_le h9
  have h11 : ¬((data.drop start).length < 4) := by
    simp only [List.length_drop]; omega
  have h12 : (data.drop start).length = data.length - start := by
    simp only [List.length_drop]
  by_cases hoff : 0 < off
  · unfold criVerify rdSeek rdReadFull
    simp [h2, hhi, h4, h5, h6, h7, h8, h10, h11, h12, hoff, hlo]
  · have hz : off = 0 := by omega
    subst hz
    unfold criVerify rdSeek rdReadFull
    simp [h2, hhi, h4, h5, h6, h7, h8, h10, h11, h12, hlo]

theorem criVerify_src_panic (newHash : List Nat → Nat) (data : List Nat) (start off I : Nat)
    (hlo : start < data.length) (hhi : data.length - start < 4) :
    criVerify newHash ⟨.src data (start + off), I, off⟩ = .panicked := by
  have h2 : ¬(data.length ≤ start) := by omega
  have h3 : data.length - start < I + 4 := by omega
  have h4 : ¬((start + off : Int) < 0) := by omega
  have h5 : ((start : Int) + (off : Int)) ⊔ 0 + -(off : Int) = (start : Int) := by omega
  have h6 : ¬((start : Int) < 0) := by omega
  have h8 : ((start : Int)).toNat = start := by omega
  have h11 : min (I + 4) (data.length - start) < 4 := by omega
  by_cases hoff : 0 < off
  · unfold criVerify rdSeek rdReadFull
    simp [h2, h3, h4, h5, h6, h8, h11, hoff]
  · have hz : off = 0 := by omega
    subst hz
    unfold criVerify rdSeek rdReadFull
    simp [h2, h3, h4, h5, h6, h8, h11]

theorem criVerify_src_eof (newHash : List Nat → Nat) (data : List Nat) (start off I : Nat)
    (hend : data.length ≤ start) :
    criVerify newHash ⟨.src data (start + off), I, off⟩ =
      .ret false (some .eof) ⟨.src data start, I, off⟩ := by
  have h4 : ¬((start + off : Int) < 0) := by omega
  have h5 : ((start : Int) + (off : Int)) ⊔ 0 + -(off : Int) = (start : Int) := by omega
  have h6 : ¬((start : Int) < 0) := by omega
  have h8 : ((start : Int)).toNat = start := by omega
  by_cases hoff : 0 < off
  · unfold criVerify rdSeek rdReadFull
    simp [hend, h4, h5, h6, h8, hoff]
  · have hz : off = 0 := by omega
    subst hz
    unfold criVerify rdSeek rdReadFull
    simp [hend, h4, h5, h6, h8]

theorem criVerify_src_backward (newHash : List Nat → Nat) (data : List Nat) (pos off I : Nat)
    (hb : pos < off) :
    criVerify newHash ⟨.src data pos, I, off⟩ =
      .ret false (some .delegateSeekErr) ⟨.src data pos, I, off⟩ := by
  have h4 : ¬((pos : Int) < 0) := by omega
  have hoff : 0 < off := by omega
  unfold criVerify rdSeek
  simp [h4, hoff, hb]

theorem criVerify_closed (newHash : List Nat → Nat) (I off : Nat) :
    criVerify newHash ⟨.closedD, I, off⟩ =
      .ret false (some .closedErr) ⟨.closedD, I, off⟩ := by
  unfold criVerify rdSeek
  simp



/-- C6: whenever `Verify` returns without error, the reader's visible state is
unchanged: the underlying source's physical position and the intra-block
offset (indeed the entire reader state) are the same after the call as before
it, regardless of whether the checksum matched. -/
theorem c6_verify_frame (newHash : List Nat → Nat) (st st' : CRState) (b : Bool)
    (h : criVerify newHash st = .ret b none st') : st' = st := by
  obtain ⟨d, I, off⟩ := st
  cases d with
  | closedD =>
    rw [criVerify_closed] at h
    simp at h
  | src data pos =>
    by_cases hb : pos < off
    · rw [criVerify_src_backward newHash data pos off I hb] at h
      simp at h
    · have hse : pos = (pos - off) + off := by omega
      rw [hse] at h ⊢
      by_cases hend : data.length ≤ pos - off
      · rw [criVerify_src_eof newHash data (pos - off) off I hend] at h
        simp at h
      · by_cases hp : data.length - (pos - off) < 4
        · rw [criVerify_src_panic newHash data (pos - off) off I (by omega) hp] at h
          simp at h
        · by_cases ht : data.length - (pos - off) < I + 4
          · rw [criVerify_src_trunc newHash data (pos - off) off I (by omega) ht] at h
            injection h with hv he hs
            exact hs.symm
          · rw [criVerify_src_full newHash data (pos - off) off I (by omega)] at h
            injection h with hv he hs
            exact hs.symm

theorem c6_witness :
    criVerify hPoly ⟨.src (writtenStream hPoly 4 [1, 2, 3, 4, 5, 6]) 10, 4, 2⟩ =
        .ret true none ⟨.src (writtenStream hPoly 4 [1, 2, 3, 4, 5, 6]) 10, 4, 2⟩ ∧
      (⟨.src (writtenStream hPoly 4 [1, 2, 3, 4, 5, 6]) 10, 4, 2⟩ : CRState) =
        ⟨.src (writtenStream hPoly 4 [1, 2, 3, 4, 5, 6]) 10, 4, 2⟩ := by
  constructor
  · decide
  · exact c6_verify_frame hPoly _ _ true (by decide)


theorem fwdmap_mod (I L : Nat) (hI : 1 ≤ I) : (L + L / I * 4) % (I + 4) = L % I := by
  have hd := Nat.div_add_mod L I
  have hm : (I + 4) * (L / I) = I * (L / I) + 4 * (L / I) := by ring
  have hsplit : L + L / I * 4 = L % I + (I + 4) * (L / I) := by omega
  rw [hsplit, Nat.add_mul_mod_self_left]
  exact Nat.mod_eq_of_lt (by
    have := Nat.mod_lt L (show 0 < I by omega)
    omega)

theorem tdiv_neg_nonpos (offset : Int) (I : Nat) (h : offset < 0) :
    Int.tdiv offset (I : Int) ≤ 0 := by
  cases offset with
  | ofNat m =>
    rw [Int.ofNat_eq_natCast] at h
    omega
  | negSucc m =>
    show -(Int.ofNat ((m + 1) / I)) ≤ 0
    have h2 : (0 : Int) ≤ Int.ofNat ((m + 1) / I) := Int.ofNat_nonneg _
    omega

theorem tmod_fwd_lt (I : Nat) (hI : 1 ≤ I) (offset : Int)
    (h : ¬(offset + Int.tdiv offset (I : Int) * 4 < 0)) :
    (Int.tmod (offset + Int.tdiv offset (I : Int) * 4) ((I : Int) + 4)).toNat < I := by
  have hnn : 0 ≤ offset := by
    by_contra hlt
    push_neg at hlt
    have h1 := tdiv_neg_nonpos offset I hlt
    omega
  lift offset to Nat using hnn with L
  have htd : Int.tdiv (L : Int) (I : Int) = ((L / I : Nat) : Int) := rfl
  rw [htd]
  have hc : ((L : Int) + ((L / I : Nat) : Int) * 4) = ((L + L / I * 4 : Nat) : Int) := by
    push_cast; ring
  rw [hc]
  have h2 : ((I : Int) + 4) = ((I + 4 : Nat) : Int) := by push_cast; ring
  rw [h2]
  have h3 : Int.tmod ((L + L / I * 4 : Nat) : Int) ((I + 4 : Nat) : Int)
      = (((L + L / I * 4) % (I + 4) : Nat) : Int) := rfl
  rw [h3, Int.toNat_natCast, fwdmap_mod I L hI]
  exact Nat.mod_lt L (by omega)

theorem seekFinish_offset_lt (st : CRState) (offset : Int)
    (hI : 1 ≤ st.checksumInterval) :
    (seekFinish st offset).2.2.checksumOffset < st.checksumInterval := by
  obtain ⟨d, I, coff⟩ := st
  simp only at hI ⊢
  cases d with
  | closedD => simp [seekFinish, rdSeek]; omega
  | src data pos =>
    by_cases hneg : offset + Int.tdiv offset (I : Int) * 4 < 0
    · simp [seekFinish, rdSeek, hneg]
      omega
    · simp only [seekFinish, rdSeek]
      simp [hneg]
      exact tmod_fwd_lt I hI offset hneg

theorem c8_read_offset (st : CRState) (vLen : Nat)
    (hI : 1 ≤ st.checksumInterval) (hs : st.checksumOffset < st.checksumInterval) :
    (criRead st vLen).2.2.checksumOffset < st.checksumInterval := by
  obtain ⟨d, I, off⟩ := st
  simp only at hI hs
  cases d with
  | closedD =>
    simp [criRead, rdRead]
    omega
  | src data pos =>
    by_cases hpos : data.length ≤ pos
    · simp [criRead, rdRead, hpos]
      omega
    · simp [criRead, rdRead, hpos]
      split_ifs <;>
        simp [List.length_take, List.length_drop] <;>
        omega

theorem c8_seek_offset (st : CRState) (offset : Int) (whence : Int)
    (hI : 1 ≤ st.checksumInterval) (hs : st.checksumOffset < st.checksumInterval) :
    (criSeek st offset whence).2.2.checksumOffset < st.checksumInterval := by
  by_cases h0 : whence = 0
  · simp only [criSeek, h0, if_pos rfl]
    exact seekFinish_offset_lt st offset hI
  · by_cases h1 : whence = 1
    · obtain ⟨d, I, coff⟩ := st
      simp only at hI hs ⊢
      cases d with
      | closedD =>
        simp [criSeek, rdSeek, h0, h1]
        omega
      | src data pos =>
        have hp : ¬((pos : Int) + 0 < 0) := by omega
        simp only [criSeek, h0, h1, if_neg h0, if_pos rfl, rdSeek]
        simp [hp]
        exact seekFinish_offset_lt ⟨.src data _, I, _⟩ _ hI
    · by_cases h2 : whence = 2
      · obtain ⟨d, I, coff⟩ := st
        simp only at hI hs ⊢
        cases d with
        | closedD =>
          simp [criSeek, rdSeek, h0, h1, h2]
          omega
        | src data pos =>
          have hp : ¬((data.length : Int) + 0 < 0) := by omega
          simp only [criSeek, h0, h1, h2, if_neg h0, if_neg h1, if_pos rfl, rdSeek]
          simp [hp]
          exact seekFinish_offset_lt ⟨.src data _, I, _⟩ _ hI
      · obtain ⟨d, I, coff⟩ := st
        simp only at hI hs ⊢
        cases d with
        | closedD => simp [criSeek, rdSeek, h0, h1, h2]; omega
        | src data pos => simp [criSeek, rdSeek, h0, h1, h2]; omega

/-- C8: the reader's intra-block offset invariant: starting from a state with
`0 ≤ checksumOffset < interval` (and `interval ≥ 1`), every `Read` call with
any buffer length and every `Seek` call with any offset and whence value,
successful or not, leaves the tracked intra-block offset strictly below the
interval (nonnegativity is inherent in the `Nat` representation, faithful to
the code, which never assigns a negative value with this delegate). -/
theorem c8_offset_invariant (st : CRState)
    (hI : 1 ≤ st.checksumInterval) (hs : st.checksumOffset < st.checksumInterval) :
    (∀ vLen, (criRead st vLen).2.2.checksumOffset < st.checksumInterval) ∧
    (∀ offset whence : Int,
      (criSeek st offset whence).2.2.checksumOffset < st.checksumInterval) :=
  ⟨fun vLen => c8_read_offset st vLen hI hs,
   fun offset whence => c8_seek_offset st offset whence hI hs⟩

theorem c8_witness :
    ((criRead (newChecksummedReaderImpl [1, 2, 3, 4, 5, 6] 4) 3).2.2.checksumOffset < 4) ∧
    ((criSeek (newChecksummedReaderImpl [1, 2, 3, 4, 5, 6] 4) 2 1).2.2.checksumOffset < 4) :=
  ⟨(c8_offset_invariant (newChecksummedReaderImpl [1, 2, 3, 4, 5, 6] 4)
      (by decide) (by decide)).1 3,
   (c8_offset_invariant (newChecksummedReaderImpl [1, 2, 3, 4, 5, 6] 4)
      (by decide) (by decide)).2 2 1⟩

theorem spec_inverse_roundtrip (I L : Nat) (hI : 1 ≤ I) :
    physicalToLogicalSpec I (logicalToPhysical I L) = L := by
  unfold physicalToLogicalSpec logicalToPhysical
  have hd := Nat.div_add_mod L I
  have hm : (I + 4) * (L / I) = I * (L / I) + 4 * (L / I) := by ring
  have hsplit : L + L / I * 4 = L % I + (I + 4) * (L / I) := by omega
  have hlt : L % I < I + 4 := by
    have := Nat.mod_lt L (show 0 < I by omega)
    omega
  have hq : (L % I + (I + 4) * (L / I)) / (I + 4) = L % I / (I + 4) + L / I :=
    Nat.add_mul_div_left _ _ (by omega : 0 < I + 4)
  have hz : L % I / (I + 4) = 0 := Nat.div_eq_of_lt hlt
  rw [hsplit, hq, hz]
  omega

/-- C2: the round trip fails on the code.  The forward mapping sends logical 4
(interval 4) to physical 8, but the translation implemented in Seek divides by
the interval instead of interval + 4 and maps physical 8 back to logical 0:
an absolute seek to logical 4 positions the source at physical 8 yet already
reports logical 0, and a subsequent relative `Seek(0, 1)` reports logical 0
and relocates the source to physical 0.  (`spec_inverse_roundtrip` above shows
the specification's inverse does satisfy the round trip.) -/
theorem c2_seek_inverse_mismatch :
    physicalToLogicalSeek 4 (logicalToPhysical 4 4) = 0 ∧
    criSeek (newChecksummedReaderImpl (List.replicate 12 0) 4) 4 0
      = (0, none, ⟨.src (List.replicate 12 0) 8, 4, 0⟩) ∧
    criSeek ⟨.src (List.replicate 12 0) 8, 4, 0⟩ 0 1
      = (0, none, ⟨.src (List.replicate 12 0) 0, 4, 0⟩) := by decide

/-- C4: on a stream holding one full 4-byte block followed by a 2-byte
truncated digest, `Read` delivers the block's content, truncates the reported
count, but returns a nil error instead of surfacing end-of-stream: the
`err = io.EOF` assignment in the source is a dead store into a variable
shadowed by `n2, err := io.ReadFull(...)`. -/
theorem c4_truncated_digest_nil_error :
    criRead (newChecksummedReaderImpl [1, 2, 3, 4, 9, 9] 4) 4
      = ([1, 2], none, ⟨.src [1, 2, 3, 4, 9, 9] 6, 4, 0⟩) := by decide

/-- C7 counterexample: closing a fresh writer poisons it, yet a subsequent
`Write` of an empty slice returns a nil error (the poisoned delegate is never
invoked when the loop does not fire and the slice is empty), contradicting
the claim that every operation after `Close` fails with a closed error. -/
theorem c7_counterexample :
    cwClose hPoly (newChecksummedWriterImpl 4)
        = (none, ⟨.closedW, 4, 0, []⟩, []) ∧
      cwWrite hPoly ⟨.closedW, 4, 0, []⟩ [] = some (0, none, ⟨.closedW, 4, 0, []⟩, []) := by
  decide

/-- C7 (amended): after `Close` (or after a sink error poisons the writer),
every `Read` and `Verify`, every `Seek` with a recognized whence, every
`Write` of a nonempty slice, and every further `Close` fails (with the
closed/already-closed error), and no operation leaves the poisoned state;
the two exceptions forced by the counterexample are a zero-length `Write`
(nil error) and a `Seek` with unrecognized whence (invalid-whence error). -/
theorem c7_closed_behavior (newHash : List Nat → Nat) (I offR coff : Nat) (cur : List Nat) :
    (∀ vLen, criRead ⟨.closedD, I, offR⟩ vLen
        = ([], some .closedErr, ⟨.closedD, I, offR⟩)) ∧
    (∀ offset whence : Int, (whence = 0 ∨ whence = 1 ∨ whence = 2) →
        (criSeek ⟨.closedD, I, offR⟩ offset whence).2.1 = some .closedErr ∧
        (criSeek ⟨.closedD, I, offR⟩ offset whence).2.2.delegate = .closedD) ∧
    (∀ newHash2 : List Nat → Nat, criVerify newHash2 ⟨.closedD, I, offR⟩
        = .ret false (some .closedErr) ⟨.closedD, I, offR⟩) ∧
    criClose ⟨.closedD, I, offR⟩ = (some .alreadyClosedErr, ⟨.closedD, I, offR⟩) ∧
    (∀ v : List Nat, v ≠ [] →
        cwWrite newHash ⟨.closedW, I, coff, cur⟩ v
          = some (0, some .closedErr, ⟨.closedW, I, coff, cur⟩, [])) ∧
    ((cwClose newHash ⟨.closedW, I, coff, cur⟩).1 ≠ none ∧
      (cwClose newHash ⟨.closedW, I, coff, cur⟩).2.1.delegate = .closedW) ∧
    (∀ v : List Nat, v ≠ [] →
        cwWrite newHash ⟨.failD, I, coff, cur⟩ v
          = some (0, some .sinkErr, ⟨.closedW, I, coff, cur⟩, [])) := by
  refine ⟨?_, ?_, ?_, ?_, ?_, ?_, ?_⟩
  · intro vLen
    simp [criRead, rdRead]
  · intro offset whence hw
    rcases hw with rfl | rfl | rfl <;>
      simp [criSeek, seekFinish, rdSeek]
  · intro newHash2
    exact criVerify_closed newHash2 I offR
  · simp [criClose, rdClose]
  · intro v hv
    have hv2 : 0 < v.length := List.length_pos.mpr hv
    by_cases hc : I ≤ coff + v.length
    · simp [cwWrite, cwWriteF, wdWrite, hc]
    · simp [cwWrite, cwWriteF, wdWrite, hc, hv2]
  · by_cases hc : 0 < coff
    · simp [cwClose, wdWrite, wdClose, hc]
    · simp [cwClose, wdWrite, wdClose, hc]
  · intro v hv
    have hv2 : 0 < v.length := List.length_pos.mpr hv
    by_cases hc : I ≤ coff + v.length
    · simp [cwWrite, cwWriteF, wdWrite, hc]
    · simp [cwWrite, cwWriteF, wdWrite, hc, hv2]

theorem c7_witness :
    criRead ⟨.closedD, 4, 1⟩ 3 = ([], some .closedErr, ⟨.closedD, 4, 1⟩) ∧
    cwWrite hPoly ⟨.closedW, 4, 2, [9, 9]⟩ [5]
      = some (0, some .closedErr, ⟨.closedW, 4, 2, [9, 9]⟩, []) :=
  ⟨(c7_closed_behavior hPoly 4 1 2 [9, 9]).1 3,
   (c7_closed_behavior hPoly 4 1 2 [9, 9]).2.2.2.2.1 [5] (by decide)⟩

/-- C9: with the underlying source holding between 1 and 3 bytes in total, a
fresh reader's `Verify` reaches `io.ReadFull` reporting `ErrUnexpectedEOF`
with `n < 4`, and the slice expression `block[n-4 : n]` uses a negative index:
`Verify` panics instead of returning `(bool, error)`.  The fresh reader over
such a source is trivially reachable. -/
theorem c9_verify_panics (newHash : List Nat → Nat) (I : Nat) (data : List Nat)
    (h1 : 1 ≤ data.length) (h2 : data.length ≤ 3) :
    criVerify newHash (newChecksummedReaderImpl data I) = .panicked := by
  have hne : ¬(data = []) := by
    intro h; subst h; simp at h1
  have hlt : data.length < I + 4 := by omega
  have hmin : min (I + 4) data.length < 4 := by omega
  unfold criVerify newChecksummedReaderImpl rdSeek rdReadFull
  simp [hne, hlt, hmin]

theorem c9_witness : criVerify hPoly (newChecksummedReaderImpl [7, 8] 16) = .panicked :=
  c9_verify_panics hPoly 16 [7, 8] (by decide) (by decide)

theorem cwWriteF_isSome (newHash : List Nat → Nat) :
    ∀ (fuel : Nat) (st : CWState) (v : List Nat) (n : Nat),
    1 ≤ st.checksumInterval → st.checksumOffset < st.checksumInterval →
    v.length < fuel → (cwWriteF newHash fuel st v n).isSome := by
  intro fuel
  induction fuel with
  | zero => intro st v n _ _ h; omega
  | succ fuel ih =>
    intro st v n hI hoff hlen
    obtain ⟨d, I, co, cur⟩ := st
    simp only at hI hoff hlen
    by_cases hc : I ≤ co + v.length
    · cases d with
      | closedW => simp [cwWriteF, wdWrite, hc]
      | failD => simp [cwWriteF, wdWrite, hc]
      | sinkD =>
        have hrec := ih ⟨.sinkD, I, 0, []⟩ (v.drop (I - co))
          (n + (v.take (I - co)).length) hI (by show (0 : Nat) < I; omega)
          (by simp only [List.length_drop]; omega)
        simp only [cwWriteF, wdWrite, hc, if_pos hc]
        rcases hres : cwWriteF newHash fuel ⟨.sinkD, I, 0, []⟩ (v.drop (I - co))
            (n + (v.take (I - co)).length) with _ | ⟨nf, e, stf, em⟩
        · rw [hres] at hrec
          simp at hrec
        · simp [hres]
    · by_cases hv : 0 < v.length <;> cases d <;> simp [cwWriteF, wdWrite, hc, hv]

theorem cwWriteF_zero_interval (newHash : List Nat → Nat) :
    ∀ (fuel : Nat) (st : CWState) (v : List Nat) (n : Nat),
    st.checksumInterval = 0 → st.delegate = .sinkD →
    cwWriteF newHash fuel st v n = none := by
  intro fuel
  induction fuel with
  | zero => intro st v n _ _; rfl
  | succ fuel ih =>
    intro st v n hI hd
    obtain ⟨d, I, co, cur⟩ := st
    simp only at hI hd
    subst hI
    subst hd
    simp only [cwWriteF, wdWrite, Nat.zero_le, if_pos]
    rw [ih ⟨.sinkD, 0, 0, []⟩ (v.drop (0 - co)) (n + (v.take (0 - co)).length) rfl rfl]
    simp

/-- C10: with `interval ≥ 1` and the in-progress block count below the
interval, every `Write` call returns within `len(v) + 1` loop iterations
(each iteration consumes at least one input byte); with `interval = 0` and a
working sink, the loop never terminates on any input, whatever the fuel. -/
theorem c10_write_terminates (newHash : List Nat → Nat) (st : CWState) (v : List Nat) (n : Nat) :
    (1 ≤ st.checksumInterval → st.checksumOffset < st.checksumInterval →
      (cwWriteF newHash (v.length + 1) st v n).isSome) ∧
    (st.checksumInterval = 0 → st.delegate = .sinkD →
      ∀ fuel, cwWriteF newHash fuel st v n = none) :=
  ⟨fun hI hoff => cwWriteF_isSome newHash (v.length + 1) st v n hI hoff (by omega),
   fun hI hd fuel => cwWriteF_zero_interval newHash fuel st v n hI hd⟩

theorem c10_witness :
    (cwWriteF hPoly 4 (newChecksummedWriterImpl 1) [1, 2, 3] 0).isSome ∧
    cwWriteF hPoly 9 (newChecksummedWriterImpl 0) [1, 2, 3] 0 = none :=
  ⟨(c10_write_terminates hPoly (newChecksummedWriterImpl 1) [1, 2, 3] 0).1
      (by decide) (by decide),
   (c10_write_terminates hPoly (newChecksummedWriterImpl 0) [1, 2, 3] 0).2 rfl rfl 9⟩


theorem emW_unfold (newHash : List Nat → Nat) (I : Nat) (v : List Nat)
    (hIne : ¬(I = 0)) (hnl : ¬(v.length < I)) :
    emW newHash I v
      = v.take I ++ be32 (newHash (v.take I)) ++ emW newHash I (v.drop I) := by
  rw [emW]
  simp [hIne, hnl]

theorem cwWriteF_sink (newHash : List Nat → Nat) (I : Nat) (hI : 1 ≤ I) :
    ∀ (fuel : Nat) (v : List Nat) (n : Nat), v.length < fuel →
    cwWriteF newHash fuel ⟨.sinkD, I, 0, []⟩ v n
      = some (n + v.length, none,
          ⟨.sinkD, I, v.length % I, v.drop (v.length - v.length % I)⟩,
          emW newHash I v) := by
  intro fuel
  induction fuel with
  | zero => intro v n h; omega
  | succ fuel ih =>
    intro v n hlen
    by_cases hc : I ≤ 0 + v.length
    · have hIne : ¬(I = 0) := by omega
      have hnl : ¬(v.length < I) := by omega
      have htk : (v.take I).length = I := by
        simp [List.length_take]; omega
      have hrec := ih (v.drop (I - 0)) (n + (v.take (I - 0)).length)
        (by simp [List.length_drop]; omega)
      simp only [Nat.sub_zero] at hrec
      have hemW := emW_unfold newHash I v hIne hnl
      have hdr : (v.drop I).length = v.length - I := by simp
      have hmod : (v.length - I) % I = v.length % I :=
        (Nat.mod_eq_sub_mod (by omega)).symm
      have hmodle : (v.length - I) % I ≤ v.length - I := Nat.mod_le _ _
      have hidx : I + ((v.drop I).length - (v.drop I).length % I) = v.length - v.length % I := by
        rw [hdr, hmod]; omega
      have hdrop2 : (v.drop I).drop ((v.drop I).length - (v.drop I).length % I)
          = v.drop (v.length - v.length % I) := by
        rw [List.drop_drop, hidx]
      simp only [cwWriteF, wdWrite, hc, if_pos hc, Nat.sub_zero, List.nil_append]
      rw [hrec]
      simp [htk, hdr, hmod, hdrop2, hemW]
      refine ⟨by omega, ?_⟩
      congr 1
      omega
    · have hvI : v.length < I := by omega
      by_cases hv : 0 < v.length
      · simp only [cwWriteF, wdWrite, hc, if_neg hc, if_pos hv]
        have h1 : v.length % I = v.length := Nat.mod_eq_of_lt hvI
        have h2 : v.length - v.length % I = 0 := by omega
        rw [emW]
        simp [show ¬(I = 0) by omega, hvI, h1, h2]
      · have hv0 : v = [] := by
          cases v with
          | nil => rfl
          | cons a t => simp at hv
        subst hv0
        simp only [cwWriteF, wdWrite]
        rw [emW]
        simp [show ¬(I = 0) by omega, show ([] : List Nat).length < I by simp; omega]



theorem encode_nil (newHash : List Nat → Nat) (I : Nat) (hIne : ¬(I = 0)) :
    encode newHash I [] = [] := by
  rw [encode]; simp [hIne]

theorem encode_small (newHash : List Nat → Nat) (I : Nat) (v : List Nat)
    (hIne : ¬(I = 0)) (hv : ¬(v = [])) (hle : v.length ≤ I) :
    encode newHash I v = v ++ be32 (newHash v) := by
  rw [encode]; simp [hIne, hv, hle]

theorem encode_big (newHash : List Nat → Nat) (I : Nat) (v : List Nat)
    (hIne : ¬(I = 0)) (hgt : ¬(v.length ≤ I)) :
    encode newHash I v
      = v.take I ++ be32 (newHash (v.take I)) ++ encode newHash I (v.drop I) := by
  have hv : ¬(v = []) := by
    intro h; subst h; simp at hgt
  rw [encode]; simp [hIne, hv, hgt]

theorem emW_small (newHash : List Nat → Nat) (I : Nat) (v : List Nat)
    (hIne : ¬(I = 0)) (hlt : v.length < I) :
    emW newHash I v = v := by
  rw [emW]; simp [hIne, hlt]

theorem encodeSplit (newHash : List Nat → Nat) (I : Nat) (hI : 1 ≤ I) :
    ∀ (b : Nat) (v : List Nat), v.length ≤ b →
    encode newHash I v
      = emW newHash I v ++
          (if v.length % I = 0 then []
           else be32 (newHash (v.drop (v.length - v.length % I)))) := by
  intro b
  induction b with
  | zero =>
    intro v hb
    have hv : v = [] := by
      cases v with
      | nil => rfl
      | cons a t => simp at hb
    subst hv
    rw [encode_nil newHash I (by omega), emW_small newHash I [] (by omega) (by simp; omega)]
    simp
  | succ b ih =>
    intro v hb
    have hIne : ¬(I = 0) := by omega
    by_cases hlt : v.length < I
    · by_cases hv : v = []
      · subst hv
        rw [encode_nil newHash I hIne, emW_small newHash I [] hIne (by simp; omega)]
        simp
      · have hvp : 0 < v.length := List.length_pos.mpr hv
        have h1 : v.length % I = v.length := Nat.mod_eq_of_lt hlt
        rw [encode_small newHash I v hIne hv (by omega), emW_small newHash I v hIne hlt]
        simp [h1, show ¬(v.length = 0) by omega]
    · by_cases heq : v.length ≤ I
      · -- v.length = I exactly
        have hlen : v.length = I := by omega
        have hv : ¬(v = []) := by
          intro h; subst h; simp at hlen; omega
        rw [encode_small newHash I v hIne hv heq]
        rw [emW_unfold newHash I v hIne hlt]
        have htake : v.take I = v := List.take_of_length_le (by omega)
        have hdrop : v.drop I = [] := List.drop_eq_nil_of_le (by omega)
        rw [htake, hdrop, emW_small newHash I [] hIne (by simp; omega)]
        simp [hlen]
      · -- v.length > I
        have hrec := ih (v.drop I) (by simp [List.length_drop]; omega)
        rw [encode_big newHash I v hIne heq, emW_unfold newHash I v hIne hlt, hrec]
        have hdr : (v.drop I).length = v.length - I := by simp
        have hmod : (v.length - I) % I = v.length % I :=
          (Nat.mod_eq_sub_mod (by omega)).symm
        have hmodle2 : v.length % I ≤ v.length - I := by
          have := Nat.mod_le (v.length - I) I
          omega
        have hdrop3 : (v.drop I).drop (v.length - I - v.length % I)
            = v.drop (v.length - v.length % I) := by
          rw [List.drop_drop]
          congr 1
          omega
        rw [hdr, hmod, hdrop3]
        simp [List.append_assoc]

theorem encodeLen (newHash : List Nat → Nat) (I : Nat) (hI : 1 ≤ I) :
    ∀ (b : Nat) (v : List Nat), v.length ≤ b →
    (encode newHash I v).length = v.length + 4 * ((v.length + I - 1) / I) := by
  intro b
  induction b with
  | zero =>
    intro v hb
    have hv : v = [] := by
      cases v with
      | nil => rfl
      | cons a t => simp at hb
    subst hv
    rw [encode_nil newHash I (by omega)]
    simp
    exact Nat.div_eq_of_lt (by omega)
  | succ b ih =>
    intro v hb
    have hIne : ¬(I = 0) := by omega
    by_cases hv : v = []
    · subst hv
      rw [encode_nil newHash I hIne]
      simp
      exact Nat.div_eq_of_lt (by omega)
    · have hvp : 0 < v.length := List.length_pos.mpr hv
      by_cases hle : v.length ≤ I
      · rw [encode_small newHash I v hIne hv hle]
        have hdiv : (v.length + I - 1) / I = 1 := by
          rw [show v.length + I - 1 = (v.length - 1) + 1 * I by omega]
          rw [Nat.add_mul_div_right _ _ (show 0 < I by omega)]
          rw [Nat.div_eq_of_lt (show v.length - 1 < I by omega)]
        rw [hdiv]
        simp [be32]
      · have hrec := ih (v.drop I) (by simp [List.length_drop]; omega)
        rw [encode_big newHash I v hIne hle]
        have hdiv : (v.length + I - 1) / I = (v.length - I + I - 1) / I + 1 := by
          rw [show v.length + I - 1 = (v.length - I + I - 1) + 1 * I by omega]
          rw [Nat.add_mul_div_right _ _ (show 0 < I by omega)]
        simp [List.length_append, List.length_take, List.length_drop, be32] at *
        rw [hrec, hdiv]
        omega

theorem cwClose_sink_zero (newHash : List Nat → Nat) (I : Nat) (cur : List Nat) :
    cwClose newHash ⟨.sinkD, I, 0, cur⟩ = (none, ⟨.closedW, I, 0, cur⟩, []) := by
  simp [cwClose, wdClose]

theorem cwClose_sink_pos (newHash : List Nat → Nat) (I r : Nat) (cur : List Nat)
    (hr : 0 < r) :
    cwClose newHash ⟨.sinkD, I, r, cur⟩
      = (none, ⟨.closedW, I, r, cur⟩, be32 (newHash cur)) := by
  simp [cwClose, wdWrite, wdClose, hr]



/-- C3: writing content of length C through a fresh writer and closing emits
exactly C + 4 * ceil(C / interval) bytes to the sink: Write alone returns
count C with no error and emits the full blocks each followed by its digest
(the last full block's digest flushed inline during Write); the whole stream
equals the framing layout `encode`; when interval divides C, Close emits no
additional digest bytes; otherwise Close emits exactly one 4-byte digest over
the pending partial block of p = C mod interval bytes. -/
theorem writtenStream_eq_encode (newHash : List Nat → Nat) (I : Nat) (c : List Nat)
    (hI : 1 ≤ I) :
    writtenStream newHash I c = encode newHash I c := by
  have hw := cwWriteF_sink newHash I hI (c.length + 1) c 0 (by omega)
  have hws : writtenStream newHash I c
      = emW newHash I c ++
          (if c.length % I = 0 then []
           else be32 (newHash (c.drop (c.length - c.length % I)))) := by
    unfold writtenStream newChecksummedWriterImpl
    rw [hw]
    by_cases h0 : c.length % I = 0
    · simp [h0, cwClose_sink_zero]
    · simp [h0, cwClose_sink_pos newHash I (c.length % I)
        (c.drop (c.length - c.length % I)) (by omega)]
  rw [hws]
  exact (encodeSplit newHash I hI c.length c (by omega)).symm

theorem c3_write_close_output (newHash : List Nat → Nat) (I : Nat) (c : List Nat)
    (hI : 1 ≤ I) :
    cwWrite newHash (newChecksummedWriterImpl I) c
        = some (c.length, none,
            ⟨.sinkD, I, c.length % I, c.drop (c.length - c.length % I)⟩,
            emW newHash I c) ∧
    writtenStream newHash I c = encode newHash I c ∧
    (writtenStream newHash I c).length = c.length + 4 * ((c.length + I - 1) / I) ∧
    (c.length % I = 0 →
      cwClose newHash ⟨.sinkD, I, c.length % I, c.drop (c.length - c.length % I)⟩
        = (none, ⟨.closedW, I, c.length % I, c.drop (c.length - c.length % I)⟩, [])) ∧
    (0 < c.length % I →
      cwClose newHash ⟨.sinkD, I, c.length % I, c.drop (c.length - c.length % I)⟩
        = (none, ⟨.closedW, I, c.length % I, c.drop (c.length - c.length % I)⟩,
            be32 (newHash (c.drop (c.length - c.length % I)))) ∧
      (c.drop (c.length - c.length % I)).length = c.length % I) := by
  have hw := cwWriteF_sink newHash I hI (c.length + 1) c 0 (by omega)
  have hwse := writtenStream_eq_encode newHash I c hI
  refine ⟨?_, ?_, ?_, ?_, ?_⟩
  · unfold cwWrite newChecksummedWriterImpl
    simpa using hw
  · exact hwse
  · rw [hwse]
    exact encodeLen newHash I hI c.length c (by omega)
  · intro h0
    rw [h0]
    exact cwClose_sink_zero newHash I _
  · intro h0
    refine ⟨cwClose_sink_pos newHash I _ _ h0, ?_⟩
    have := Nat.mod_le c.length I
    simp [List.length_drop]
    omega

theorem c3_witness :
    cwWrite hPoly (newChecksummedWriterImpl 4) [1, 2, 3, 4, 5, 6]
        = some (6, none, ⟨.sinkD, 4, 2, [5, 6]⟩, emW hPoly 4 [1, 2, 3, 4, 5, 6]) ∧
    (writtenStream hPoly 4 [1, 2, 3, 4, 5, 6]).length = 6 + 4 * ((6 + 4 - 1) / 4) ∧
    cwClose hPoly ⟨.sinkD, 4, 2, [5, 6]⟩
      = (none, ⟨.closedW, 4, 2, [5, 6]⟩, be32 (hPoly [5, 6])) := by
  have h := c3_write_close_output hPoly 4 [1, 2, 3, 4, 5, 6] (by decide)
  refine ⟨?_, h.2.2.1, ?_⟩
  · have h1 := h.1
    simpa using h1
  · have h5 := (h.2.2.2.2 (by decide)).1
    simpa using h5



theorem be32_length (x : Nat) : (be32 x).length = 4 := by simp [be32]

theorem encode_length_lower (newHash : List Nat → Nat) (I : Nat) (c : List Nat)
    (hI : 1 ≤ I) (hc : ¬(c = [])) :
    c.length + 4 ≤ (encode newHash I c).length := by
  rw [encodeLen newHash I hI c.length c (by omega)]
  have hcp : 0 < c.length := List.length_pos.mpr hc
  have h1 : 1 ≤ (c.length + I - 1) / I := (Nat.one_le_div_iff (by omega)).mpr (by omega)
  omega

theorem readAll_end (fuel : Nat) (hf : 1 ≤ fuel) (data : List Nat) (pos I co : Nat)
    (hpos : data.length ≤ pos) :
    readAll fuel ⟨.src data pos, I, co⟩ I = [] := by
  cases fuel with
  | zero => omega
  | succ fuel => simp [readAll, criRead, rdRead, hpos]

theorem criRead_block_full (newHash : List Nat → Nat) (I : Nat) (c data : List Nat)
    (pos : Nat) (hI : 1 ≤ I) (hc : I < c.length)
    (hdata : data.drop pos = encode newHash I c) (hpos : pos ≤ data.length) :
    criRead ⟨.src data pos, I, 0⟩ I
      = (c.take I, none, ⟨.src data (pos + I + 4), I, 0⟩) := by
  have hEnc := encode_big newHash I c (by omega) (by omega)
  have hcdne : ¬(c.drop I = []) := by
    intro h
    have := congrArg List.length h
    simp at this
    omega
  have hlow := encode_length_lower newHash I (c.drop I) hI hcdne
  have htkI : (c.take I).length = I := by simp [List.length_take]; omega
  have hElen : (encode newHash I c).length
      = I + 4 + (encode newHash I (c.drop I)).length := by
    rw [hEnc]
    simp [be32_length, htkI]
    omega
  have hrem : data.length - pos = (encode newHash I c).length := by
    have h1 : (data.drop pos).length = data.length - pos := by simp
    rw [hdata] at h1
    omega
  have hdl : (c.drop I).length = c.length - I := by simp
  have hrembig : I + 4 + 5 ≤ data.length - pos := by
    rw [hrem, hElen]
    omega
  have hnp : ¬(data.length ≤ pos) := by omega
  have hgot : (data.drop pos).take I = c.take I := by
    rw [hdata, hEnc]
    rw [List.take_append_eq_append_take]
    simp [htkI]
  have hd1 : rdRead (.src data pos) I = (c.take I, none, .src data (pos + I)) := by
    simp only [rdRead, if_neg hnp, hgot]
    have h2 : min I (data.length - pos) = I := by omega
    rw [h2]
  have hd2 : rdReadFull (.src data (pos + I)) 4
      = ((data.drop (pos + I)).take 4, none, .src data (pos + I + 4)) := by
    simp only [rdReadFull]
    have h3 : ¬((4 : Nat) = 0) := by omega
    have h4 : ¬(data.length ≤ pos + I) := by omega
    have h5 : ¬(data.length - (pos + I) < 4) := by omega
    simp [h3, h4, h5]
  simp only [criRead, Nat.zero_add]
  rw [if_neg (lt_irrefl I), hd1]
  simp [htkI, hd2]

theorem criRead_final_block (newHash : List Nat → Nat) (I : Nat) (c data : List Nat)
    (pos : Nat) (hI : 1 ≤ I) (hc0 : ¬(c = [])) (hcI : c.length ≤ I)
    (hdata : data.drop pos = encode newHash I c) (hpos : pos ≤ data.length) :
    ∃ co2, criRead ⟨.src data pos, I, 0⟩ I
      = (c, none, ⟨.src data data.length, I, co2⟩) := by
  have hEnc := encode_small newHash I c (by omega) hc0 hcI
  have hcp : 0 < c.length := List.length_pos.mpr hc0
  have hElen : (encode newHash I c).length = c.length + 4 := by
    rw [hEnc]; simp [be32_length]
  have hrem : data.length - pos = c.length + 4 := by
    have h1 : (data.drop pos).length = data.length - pos := by simp
    rw [hdata] at h1
    omega
  have hnp : ¬(data.length ≤ pos) := by omega
  have hdEF : rdReadFull (.src data data.length) 4 = ([], some .eof, .src data data.length) := by
    simp [rdReadFull]
  by_cases hb : c.length + 4 ≤ I
  · -- the whole final segment (content plus digest) fits in the buffer
    have hgot : (data.drop pos).take I = c ++ be32 (newHash c) := by
      rw [hdata, hEnc]
      exact List.take_of_length_le (by simp [be32_length]; omega)
    have hglen : (c ++ be32 (newHash c)).length = c.length + 4 := by
      simp [be32_length]
    have hd1 : rdRead (.src data pos) I = (c ++ be32 (newHash c), none, .src data data.length) := by
      simp only [rdRead, if_neg hnp, hgot]
      have h2 : min I (data.length - pos) = c.length + 4 := by omega
      rw [h2]
      have h3 : pos + (c.length + 4) = data.length := by omega
      rw [h3]
    have htkc : (c ++ be32 (newHash c)).take (c.length + 4 - 4) = c := by
      rw [List.take_append_eq_append_take]
      simp
    by_cases heq : c.length + 4 = I
    · refine ⟨0, ?_⟩
      have htkc2 : (c ++ be32 (newHash c)).take (I - 4) = c := by
        rw [show I - 4 = c.length from by omega]
        rw [List.take_append_eq_append_take]
        simp
      simp only [criRead, Nat.zero_add]
      rw [if_neg (lt_irrefl I), hd1]
      simp [hglen, heq, htkc, htkc2, hdEF]
    · refine ⟨c.length + 4, ?_⟩
      simp only [criRead, Nat.zero_add]
      rw [if_neg (lt_irrefl I), hd1]
      simp [hglen, heq, htkc, hdEF]
  · -- the buffer stops at the block boundary inside the final segment
    have hgot : (data.drop pos).take I = c ++ (be32 (newHash c)).take (I - c.length) := by
      rw [hdata, hEnc]
      rw [List.take_append_eq_append_take]
      congr 1
      exact List.take_of_length_le (by omega)
    have hglen : (c ++ (be32 (newHash c)).take (I - c.length)).length = I := by
      simp [be32_length]
      omega
    have hd1 : rdRead (.src data pos) I
        = (c ++ (be32 (newHash c)).take (I - c.length), none, .src data (pos + I)) := by
      simp only [rdRead, if_neg hnp, hgot]
      have h2 : min I (data.length - pos) = I := by omega
      rw [h2]
    have htkc : ∀ m, (c ++ (be32 (newHash c)).take (I - c.length)).take (I - m) = c
        → True := fun _ _ => trivial
    by_cases heq : c.length = I
    · refine ⟨0, ?_⟩
      have hd2 : rdReadFull (.src data (pos + I)) 4
          = ((data.drop (pos + I)).take 4, none, .src data (pos + I + 4)) := by
        simp only [rdReadFull]
        have h3 : ¬((4 : Nat) = 0) := by omega
        have h4 : ¬(data.length ≤ pos + I) := by omega
        have h5 : ¬(data.length - (pos + I) < 4) := by omega
        simp [h3, h4, h5]
      have hend : pos + I + 4 = data.length := by omega
      have hceq : c ++ (be32 (newHash c)).take (I - c.length) = c := by
        simp [show I - c.length = 0 by omega]
      simp only [criRead, Nat.zero_add]
      rw [if_neg (lt_irrefl I), hd1]
      simp [hceq, heq, hd2, hend]
    · refine ⟨0, ?_⟩
      have hd2 : rdReadFull (.src data (pos + I)) 4
          = ((data.drop (pos + I)).take 4, some .unexpectedEof, .src data data.length) := by
        simp only [rdReadFull]
        have h3 : ¬((4 : Nat) = 0) := by omega
        have h4 : ¬(data.length ≤ pos + I) := by omega
        have h5 : data.length - (pos + I) < 4 := by omega
        simp [h3, h4, h5]
      have hn2 : ((data.drop (pos + I)).take 4).length = c.length + 4 - I := by
        simp
        omega
      have htk2 : (c ++ (be32 (newHash c)).take (I - c.length)).take (I - (4 - (c.length + 4 - I)))
          = c := by
        rw [List.take_append_eq_append_take]
        have h6 : I - (4 - (c.length + 4 - I)) = c.length := by omega
        rw [h6]
        simp
      simp only [criRead, Nat.zero_add]
      rw [if_neg (lt_irrefl I), hd1]
      simp [hglen, hn2, htk2, hd2]



theorem readAll_succ (fuel : Nat) (st : CRState) (bufLen : Nat) :
    readAll (fuel + 1) st bufLen
      = (match (criRead st bufLen).2.1 with
         | none => (criRead st bufLen).1 ++ readAll fuel (criRead st bufLen).2.2 bufLen
         | some _ => (criRead st bufLen).1) := rfl

theorem criRead_at_end (data : List Nat) (pos I co vLen : Nat)
    (hpos : data.length ≤ pos) :
    criRead ⟨.src data pos, I, co⟩ vLen = ([], some .eof, ⟨.src data pos, I, co⟩) := by
  simp [criRead, rdRead, hpos]

theorem readAll_encode (newHash : List Nat → Nat) (I : Nat) (hI : 1 ≤ I) :
    ∀ (b : Nat) (c data : List Nat) (pos : Nat), c.length ≤ b →
    data.drop pos = encode newHash I c → pos ≤ data.length →
    readAll (b + 1) ⟨.src data pos, I, 0⟩ I = c := by
  intro b
  induction b with
  | zero =>
    intro c data pos hb hdata hpos
    have hc : c = [] := by
      cases c with
      | nil => rfl
      | cons a t => simp at hb
    subst hc
    rw [encode_nil newHash I (by omega)] at hdata
    have hend : data.length ≤ pos := by
      have h1 := congrArg List.length hdata
      simp at h1
      omega
    exact readAll_end 1 (by omega) data pos I 0 hend
  | succ b ih =>
    intro c data pos hb hdata hpos
    by_cases hc0 : c = []
    · subst hc0
      rw [encode_nil newHash I (by omega)] at hdata
      have hend : data.length ≤ pos := by
        have h1 := congrArg List.length hdata
        simp at h1
        omega
      exact readAll_end (b + 1 + 1) (by omega) data pos I 0 hend
    · have hcp : 0 < c.length := List.length_pos.mpr hc0
      by_cases hcI : c.length ≤ I
      · obtain ⟨co2, hstep⟩ := criRead_final_block newHash I c data pos hI hc0 hcI hdata hpos
        rw [readAll_succ, hstep]
        simp only []
        rw [readAll_end (b + 1) (by omega) data data.length I co2 (by omega)]
        simp
      · have hstep := criRead_block_full newHash I c data pos hI (by omega) hdata hpos
        have hEnc := encode_big newHash I c (by omega) (by omega)
        have htkI : (c.take I).length = I := by simp [List.length_take]; omega
        have hdrop : (encode newHash I c).drop (I + 4) = encode newHash I (c.drop I) := by
          rw [hEnc]
          have hx : I + 4 - I = 4 := by omega
          have e1 : List.drop (I + 4) (List.take I c) = [] :=
            List.drop_eq_nil_of_le (by rw [htkI]; omega)
          have e3 : List.drop 4 (be32 (newHash (List.take I c))) = [] :=
            List.drop_eq_nil_of_le (by rw [be32_length])
          have him : I ⊓ c.length = I := min_eq_left (by omega)
          simp only [List.drop_append_eq_append_drop, htkI, be32_length, hx]
          simp [e1, e3, him, be32_length]
        have hdata2 : data.drop (pos + I + 4) = encode newHash I (c.drop I) := by
          rw [show pos + I + 4 = pos + (I + 4) from by omega]
          rw [← List.drop_drop, hdata, hdrop]
        have hElen : I + 4 ≤ (encode newHash I c).length := by
          rw [hEnc]
          simp [be32_length, htkI]
        have hrem : data.length - pos = (encode newHash I c).length := by
          have h1 : (data.drop pos).length = data.length - pos := by simp
          rw [hdata] at h1
          omega
        have hpos2 : pos + I + 4 ≤ data.length := by omega
        have hrec := ih (c.drop I) data (pos + I + 4) (by simp; omega) hdata2 (by omega)
        rw [readAll_succ, hstep]
        simp only []
        rw [hrec]
        exact List.take_append_drop I c

/-- C1: for every interval at least 1 and every content byte sequence,
writing the content through a fresh ChecksummedWriter followed by Close and
then reading sequentially (interval-sized buffers, stopping at the first
error) through a ChecksummedReader bound to the emitted bytes with the same
interval and hash construction reproduces the content exactly. -/
theorem c1_roundtrip (newHash : List Nat → Nat) (I : Nat) (c : List Nat) (hI : 1 ≤ I) :
    readAll (c.length + 1) (newChecksummedReaderImpl (writtenStream newHash I c) I) I = c := by
  unfold newChecksummedReaderImpl
  rw [writtenStream_eq_encode newHash I c hI]
  exact readAll_encode newHash I hI c.length c (encode newHash I c) 0 le_rfl (by simp) (by omega)

theorem c1_witness :
    readAll 7 (newChecksummedReaderImpl (writtenStream hPoly 4 [1, 2, 3, 4, 5, 6]) 4) 4
      = [1, 2, 3, 4, 5, 6] :=
  c1_roundtrip hPoly 4 [1, 2, 3, 4, 5, 6] (by decide)



theorem be32_eq_iff (a b : Nat) : be32 a = be32 b ↔ a % 2 ^ 32 = b % 2 ^ 32 := by
  simp only [be32, List.cons.injEq, and_true]
  omega

theorem set_ne_of_getD (l : List Nat) (t y : Nat) (ht : t < l.length)
    (hy : ¬(y = l.getD t 0)) : ¬(l.set t y = l) := by
  intro h
  apply hy
  have h2 : (l.set t y).getD t 0 = l.getD t 0 := by rw [h]
  rw [List.getD_eq_getElem (l.set t y) 0 (by rw [List.length_set]; omega)] at h2
  rw [List.getElem_set_self] at h2
  exact h2

theorem encode_drop_blocks (newHash : List Nat → Nat) (I : Nat) (hI : 1 ≤ I) :
    ∀ (k : Nat) (c : List Nat), k * I < c.length →
    (encode newHash I c).drop (k * (I + 4)) = encode newHash I (c.drop (k * I)) := by
  intro k
  induction k with
  | zero => intro c hk; simp
  | succ k ih =>
    intro c hk
    have hIlt : I < c.length := by
      have h1 : I ≤ (k + 1) * I := by
        have := Nat.le_mul_of_pos_left I (show 0 < k + 1 by omega)
        omega
      omega
    have hEnc := encode_big newHash I c (by omega) (by omega)
    have htkI : (c.take I).length = I := by simp [List.length_take]; omega
    have hstep : (encode newHash I c).drop (I + 4) = encode newHash I (c.drop I) := by
      rw [hEnc]
      have hx : I + 4 - I = 4 := by omega
      have e1 : List.drop (I + 4) (List.take I c) = [] :=
        List.drop_eq_nil_of_le (by rw [htkI]; omega)
      have e3 : List.drop 4 (be32 (newHash (List.take I c))) = [] :=
        List.drop_eq_nil_of_le (by rw [be32_length])
      have him : I ⊓ c.length = I := min_eq_left (by omega)
      simp only [List.drop_append_eq_append_drop, htkI, be32_length, hx]
      simp [e1, e3, him, be32_length]
    have hrec := ih (c.drop I) (by
      simp only [List.length_drop]
      have hmul : (k + 1) * I = k * I + I := by ring
      omega)
    calc (encode newHash I c).drop ((k + 1) * (I + 4))
        = ((encode newHash I c).drop (I + 4)).drop (k * (I + 4)) := by
          rw [List.drop_drop]
          congr 1
          ring
      _ = (encode newHash I (c.drop I)).drop (k * (I + 4)) := by rw [hstep]
      _ = encode newHash I ((c.drop I).drop (k * I)) := hrec
      _ = encode newHash I (c.drop ((k + 1) * I)) := by
          rw [List.drop_drop]
          congr 2
          ring



theorem encode_take_head (newHash : List Nat → Nat) (I : Nat) (tail : List Nat)
    (hI : 1 ≤ I) (hbig : I ≤ tail.length) :
    (encode newHash I tail).take (I + 4) = tail.take I ++ be32 (newHash (tail.take I)) := by
  have htkI : (tail.take I).length = I := by simp [List.length_take]; omega
  by_cases heq : tail.length ≤ I
  · have hlen : tail.length = I := by omega
    have hne : ¬(tail = []) := by
      intro h; subst h; simp at hlen; omega
    rw [encode_small newHash I tail (by omega) hne heq]
    rw [List.take_of_length_le (by simp [be32_length]; omega)]
    rw [List.take_of_length_le (by omega)]
  · rw [encode_big newHash I tail (by omega) heq]
    have t1 : (tail.take I).take (I + 4) = tail.take I :=
      List.take_of_length_le (by rw [htkI]; omega)
    have t2 : (be32 (newHash (tail.take I))).take 4 = be32 (newHash (tail.take I)) :=
      List.take_of_length_le (by rw [be32_length])
    have hx : I + 4 - I = 4 := by omega
    have hAB : (tail.take I ++ be32 (newHash (tail.take I))).length = I + 4 := by
      simp [htkI, be32_length]
    simp only [List.take_append_eq_append_take, htkI, be32_length, hx, t1, t2, hAB,
      Nat.sub_self, List.take_zero, List.append_nil]

theorem encode_suffix_len (newHash : List Nat → Nat) (I : Nat) (data tail : List Nat)
    (start : Nat) (hI : 1 ≤ I) (htne : ¬(tail = []))
    (hdrop : data.drop start = encode newHash I tail) :
    data.length - start = (encode newHash I tail).length ∧ start ≤ data.length := by
  have h1 := congrArg List.length hdrop
  simp only [List.length_drop] at h1
  have h2 := encode_length_lower newHash I tail hI htne
  have h3 : 0 < tail.length := List.length_pos.mpr htne
  constructor
  · omega
  · omega

theorem verify_block_intact (newHash : List Nat → Nat) (I : Nat) (data tail : List Nat)
    (start off : Nat) (hI : 1 ≤ I) (htne : ¬(tail = []))
    (hdrop : data.drop start = encode newHash I tail) :
    criVerify newHash ⟨.src data (start + off), I, off⟩
      = .ret true none ⟨.src data (start + off), I, off⟩ := by
  obtain ⟨hlen, hstart⟩ := encode_suffix_len newHash I data tail start hI htne hdrop
  have h3 : 0 < tail.length := List.length_pos.mpr htne
  by_cases hbig : I ≤ tail.length
  · have hr : I + 4 ≤ data.length - start := by
      have := encode_length_lower newHash I tail hI htne
      omega
    rw [criVerify_src_full newHash data start off I hr]
    have htkI : (tail.take I).length = I := by simp [List.length_take]; omega
    have h1 : (data.drop start).take (I + 4)
        = tail.take I ++ be32 (newHash (tail.take I)) := by
      rw [hdrop]
      exact encode_take_head newHash I tail hI hbig
    have h2 : (tail.take I ++ be32 (newHash (tail.take I))).drop I
        = be32 (newHash (tail.take I)) := by
      rw [List.drop_append_eq_append_drop, htkI]
      simp [List.drop_eq_nil_of_le (le_of_eq htkI)]
    have h3b : (tail.take I ++ be32 (newHash (tail.take I))).take I = tail.take I := by
      rw [List.take_append_eq_append_take, htkI]
      simp [List.take_of_length_le (le_of_eq htkI)]
    rw [h1, h2, h3b, beq_self_eq_true]
  · have p := tail.length
    have hEnc := encode_small newHash I tail (by omega) htne (by omega)
    have hElen : (encode newHash I tail).length = tail.length + 4 := by
      rw [hEnc]; simp [be32_length]
    have hlo : 4 ≤ data.length - start := by omega
    have hhi : data.length - start < I + 4 := by omega
    rw [criVerify_src_trunc newHash data start off I hlo hhi]
    have hn4 : data.length - start - 4 = tail.length := by omega
    have h1 : (data.drop start).drop (tail.length) = be32 (newHash tail) := by
      rw [hdrop, hEnc, List.drop_append_eq_append_drop]
      simp [List.drop_eq_nil_of_le (le_refl tail.length)]
    have h2 : (data.drop start).take (tail.length) = tail := by
      rw [hdrop, hEnc, List.take_append_eq_append_take]
      simp [List.take_of_length_le (le_refl tail.length)]
    rw [hn4, h1, h2, beq_self_eq_true]



theorem verify_read_shape (newHash : List Nat → Nat) (I : Nat) (data : List Nat)
    (start off : Nat) (blk ds : List Nat)
    (hblkI : blk.length = I) (hr : I + 4 ≤ data.length - start)
    (htk : (data.drop start).take (I + 4) = blk ++ ds) :
    criVerify newHash ⟨.src data (start + off), I, off⟩
      = .ret (ds == be32 (newHash blk)) none ⟨.src data (start + off), I, off⟩ := by
  rw [criVerify_src_full newHash data start off I hr, htk]
  have h2 : (blk ++ ds).drop I = ds := by
    rw [List.drop_append_eq_append_drop, hblkI]
    simp [List.drop_eq_nil_of_le (le_of_eq hblkI)]
  have h3 : (blk ++ ds).take I = blk := by
    rw [List.take_append_eq_append_take, hblkI]
    simp [List.take_of_length_le (le_of_eq hblkI)]
  rw [h2, h3]

theorem verify_read_shape_trunc (newHash : List Nat → Nat) (I : Nat) (data : List Nat)
    (start off : Nat) (blk ds : List Nat)
    (hds : ds.length = 4) (hblk : blk.length < I)
    (hlen : data.length - start = blk.length + 4)
    (hdrop : data.drop start = blk ++ ds) :
    criVerify newHash ⟨.src data (start + off), I, off⟩
      = .ret (ds == be32 (newHash blk)) none ⟨.src data (start + off), I, off⟩ := by
  rw [criVerify_src_trunc newHash data start off I (by omega) (by omega)]
  have hn4 : data.length - start - 4 = blk.length := by omega
  have h1 : (data.drop start).drop blk.length = ds := by
    rw [hdrop, List.drop_append_eq_append_drop]
    simp [List.drop_eq_nil_of_le (le_refl blk.length)]
  have h2 : (data.drop start).take blk.length = blk := by
    rw [hdrop, List.take_append_eq_append_take]
    simp [List.take_of_length_le (le_refl blk.length)]
  rw [hn4, h1, h2]

theorem verify_block_content_corrupt (newHash : List Nat → Nat) (I : Nat)
    (data tail : List Nat) (start off j y : Nat)
    (hI : 1 ≤ I) (htne : ¬(tail = [])) (hj : j < min I tail.length)
    (hsep : ¬(newHash ((tail.take I).set j y) % 2 ^ 32 = newHash (tail.take I) % 2 ^ 32))
    (hdrop : data.drop start = (encode newHash I tail).set j y) :
    criVerify newHash ⟨.src data (start + off), I, off⟩
      = .ret false none ⟨.src data (start + off), I, off⟩ := by
  have h3 : 0 < tail.length := List.length_pos.mpr htne
  have hlen : data.length - start = (encode newHash I tail).length ∧ start ≤ data.length := by
    have h1 := congrArg List.length hdrop
    simp only [List.length_drop, List.length_set] at h1
    have h2 := encode_length_lower newHash I tail hI htne
    omega
  have hfalse : ∀ A : List Nat,
      ¬(be32 (newHash (tail.take I)) = be32 (newHash ((tail.take I).set j y))) := by
    intro A h
    exact hsep ((be32_eq_iff _ _).mp h.symm)
  by_cases hbig : I ≤ tail.length
  · have htkI : (tail.take I).length = I := by simp [List.length_take]; omega
    have hjI : j < I := by omega
    have hr : I + 4 ≤ data.length - start := by
      have := encode_length_lower newHash I tail hI htne
      omega
    have htk : (data.drop start).take (I + 4)
        = (tail.take I).set j y ++ be32 (newHash (tail.take I)) := by
      rw [hdrop]
      by_cases heq : tail.length ≤ I
      · rw [encode_small newHash I tail (by omega) htne heq]
        rw [List.set_append, if_pos (by omega)]
        rw [List.take_of_length_le (by simp [List.length_set, be32_length]; omega)]
        have htt : tail.take I = tail := List.take_of_length_le (by omega)
        rw [htt]
      · rw [encode_big newHash I tail (by omega) heq]
        rw [List.set_append, if_pos (by simp [htkI, be32_length]; omega)]
        rw [List.set_append, if_pos (by rw [htkI]; omega)]
        rw [List.take_append_eq_append_take]
        have hABlen : ((tail.take I).set j y ++ be32 (newHash (tail.take I))).length
            = I + 4 := by
          simp [List.length_set, htkI, be32_length]
        rw [List.take_of_length_le (by rw [hABlen])]
        rw [hABlen, Nat.sub_self]
        simp
    rw [verify_read_shape newHash I data start off ((tail.take I).set j y)
      (be32 (newHash (tail.take I))) (by simp [List.length_set, htkI]) hr htk]
    rw [beq_eq_false_iff_ne.mpr (hfalse [])]
  · have hp : tail.length < I := by omega
    have htt : tail.take I = tail := List.take_of_length_le (by omega)
    have hEnc := encode_small newHash I tail (by omega) htne (by omega)
    have hElen : (encode newHash I tail).length = tail.length + 4 := by
      rw [hEnc]; simp [be32_length]
    have hjp : j < tail.length := by omega
    have hdrop2 : data.drop start = tail.set j y ++ be32 (newHash tail) := by
      rw [hdrop, hEnc, List.set_append, if_pos (by omega)]
    rw [verify_read_shape_trunc newHash I data start off (tail.set j y)
      (be32 (newHash tail)) (be32_length _) (by simp [List.length_set]; omega)
      (by simp [List.length_set]; omega) hdrop2]
    have hfalse2 : ¬(be32 (newHash tail) = be32 (newHash (tail.set j y))) := by
      have := hfalse []
      rw [htt] at this
      exact this
    rw [beq_eq_false_iff_ne.mpr hfalse2]

theorem verify_block_digest_corrupt (newHash : List Nat → Nat) (I : Nat)
    (data tail : List Nat) (start off t y : Nat)
    (hI : 1 ≤ I) (htne : ¬(tail = [])) (ht : t < 4)
    (hy : ¬(y = (be32 (newHash (tail.take I))).getD t 0))
    (hdrop : data.drop start = (encode newHash I tail).set (min I tail.length + t) y) :
    criVerify newHash ⟨.src data (start + off), I, off⟩
      = .ret false none ⟨.src data (start + off), I, off⟩ := by
  have h3 : 0 < tail.length := List.length_pos.mpr htne
  have hlen : data.length - start = (encode newHash I tail).length ∧ start ≤ data.length := by
    have h1 := congrArg List.length hdrop
    simp only [List.length_drop, List.length_set] at h1
    have h2 := encode_length_lower newHash I tail hI htne
    omega
  have hsetne : ¬((be32 (newHash (tail.take I))).set t y = be32 (newHash (tail.take I))) :=
    set_ne_of_getD _ t y (by rw [be32_length]; omega) hy
  by_cases hbig : I ≤ tail.length
  · have htkI : (tail.take I).length = I := by simp [List.length_take]; omega
    have hmin : min I tail.length = I := by omega
    have hr : I + 4 ≤ data.length - start := by
      have := encode_length_lower newHash I tail hI htne
      omega
    have htk : (data.drop start).take (I + 4)
        = tail.take I ++ (be32 (newHash (tail.take I))).set t y := by
      rw [hdrop, hmin]
      by_cases heq : tail.length ≤ I
      · have htt : tail.take I = tail := List.take_of_length_le (by omega)
        rw [encode_small newHash I tail (by omega) htne heq]
        rw [List.set_append, if_neg (by omega)]
        rw [show I + t - tail.length = t from by omega]
        rw [List.take_of_length_le
          (by simp [List.length_set, be32_length]; omega)]
        rw [htt]
      · rw [encode_big newHash I tail (by omega) heq]
        rw [List.set_append, if_pos (by simp [htkI, be32_length]; omega)]
        rw [List.set_append, if_neg (by rw [htkI]; omega)]
        rw [htkI, show I + t - I = t from by omega]
        rw [List.take_append_eq_append_take]
        have hABlen : (tail.take I ++ (be32 (newHash (tail.take I))).set t y).length
            = I + 4 := by
          simp [List.length_set, htkI, be32_length]
        rw [List.take_of_length_le (by rw [hABlen])]
        rw [hABlen, Nat.sub_self]
        simp
    rw [verify_read_shape newHash I data start off (tail.take I)
      ((be32 (newHash (tail.take I))).set t y) htkI hr htk]
    rw [beq_eq_false_iff_ne.mpr hsetne]
  · have hp : tail.length < I := by omega
    have htt : tail.take I = tail := List.take_of_length_le (by omega)
    have hmin : min I tail.length = tail.length := by omega
    have hEnc := encode_small newHash I tail (by omega) htne (by omega)
    have hElen : (encode newHash I tail).length = tail.length + 4 := by
      rw [hEnc]; simp [be32_length]
    have hdrop2 : data.drop start = tail ++ (be32 (newHash tail)).set t y := by
      rw [hdrop, hmin, hEnc, List.set_append, if_neg (by omega)]
      rw [show tail.length + t - tail.length = t from by omega]
    rw [verify_read_shape_trunc newHash I data start off tail
      ((be32 (newHash tail)).set t y) (by rw [List.length_set, be32_length])
      (by omega) (by rw [hlen.1, hElen]) hdrop2]
    have hsetne2 : ¬((be32 (newHash tail)).set t y = be32 (newHash tail)) := by
      rw [← htt]
      exact hsetne
    rw [beq_eq_false_iff_ne.mpr hsetne2]



/-- C5 (amended): for a stream `encode newHash I c` and a reader whose cursor
sits inside block `k`'s content region, `Verify` returns `(true, nil)` and the
state is untouched; corrupting a single stored digest byte of block `k` (any
changed value, in particular any single-bit flip) makes `Verify` return
`(false, nil)`; corrupting a stored content byte of block `k` makes `Verify`
return `(false, nil)` whenever the hash assigns the corrupted block a
different 32-bit value (for a degenerate hash a content corruption can go
undetected, see the counterexample). -/
theorem c5_verify_detection (newHash : List Nat → Nat) (I k off : Nat) (c : List Nat)
    (hI : 1 ≤ I) (hk : k * I < c.length)
    (hoff : off < min I (c.length - k * I)) :
    (criVerify newHash ⟨.src (encode newHash I c) (k * (I + 4) + off), I, off⟩
       = .ret true none ⟨.src (encode newHash I c) (k * (I + 4) + off), I, off⟩) ∧
    (∀ j y, j < min I (c.length - k * I) →
       ¬(newHash (((c.drop (k * I)).take I).set j y) % 2 ^ 32
           = newHash ((c.drop (k * I)).take I) % 2 ^ 32) →
       criVerify newHash
           ⟨.src ((encode newHash I c).set (k * (I + 4) + j) y) (k * (I + 4) + off), I, off⟩
         = .ret false none
             ⟨.src ((encode newHash I c).set (k * (I + 4) + j) y) (k * (I + 4) + off), I, off⟩) ∧
    (∀ t y, t < 4 →
       ¬(y = (be32 (newHash ((c.drop (k * I)).take I))).getD t 0) →
       criVerify newHash
           ⟨.src ((encode newHash I c).set
                    (k * (I + 4) + (min I (c.length - k * I) + t)) y)
              (k * (I + 4) + off), I, off⟩
         = .ret false none
             ⟨.src ((encode newHash I c).set
                      (k * (I + 4) + (min I (c.length - k * I) + t)) y)
                (k * (I + 4) + off), I, off⟩) := by
  have htlen : (c.drop (k * I)).length = c.length - k * I := by simp
  have htne : ¬(c.drop (k * I) = []) := by
    intro h
    have := congrArg List.length h
    simp at this
    omega
  have hdropk := encode_drop_blocks newHash I hI k c hk
  refine ⟨?_, ?_, ?_⟩
  · exact verify_block_intact newHash I (encode newHash I c) (c.drop (k * I))
      (k * (I + 4)) off hI htne hdropk
  · intro j y hj hsep
    have hdrop2 : ((encode newHash I c).set (k * (I + 4) + j) y).drop (k * (I + 4))
        = (encode newHash I (c.drop (k * I))).set j y := by
      rw [List.drop_set, if_neg (by omega)]
      rw [show k * (I + 4) + j - k * (I + 4) = j from by omega]
      rw [hdropk]
    exact verify_block_content_corrupt newHash I _ (c.drop (k * I))
      (k * (I + 4)) off j y hI htne (by rw [htlen]; omega) hsep hdrop2
  · intro t y ht hy
    have hdrop2 : ((encode newHash I c).set
          (k * (I + 4) + (min I (c.length - k * I) + t)) y).drop (k * (I + 4))
        = (encode newHash I (c.drop (k * I))).set
            (min I ((c.drop (k * I)).length) + t) y := by
      rw [List.drop_set, if_neg (by omega)]
      rw [show k * (I + 4) + (min I (c.length - k * I) + t) - k * (I + 4)
            = min I (c.length - k * I) + t from by omega]
      rw [hdropk, htlen]
    exact verify_block_digest_corrupt newHash I _ (c.drop (k * I))
      (k * (I + 4)) off t y hI htne ht hy hdrop2

/-- C5 counterexample: the claim as stated fails for a degenerate hash
construction.  With the constant hash, interval 1 and content [5], flipping
bit 0 of the stored content byte (5 becomes 4) leaves Verify returning
`(true, nil)`: a content-bit flip is not necessarily detected, so detection
requires the hash to separate the corrupted block from the original. -/
theorem c5_counterexample :
    Nat.xor 5 1 = 4 ∧
    encode (fun _ => 0) 1 [5] = [5, 0, 0, 0, 0] ∧
    (encode (fun _ => 0) 1 [5]).set 0 (Nat.xor 5 1) = [4, 0, 0, 0, 0] ∧
    criVerify (fun _ => 0)
        ⟨.src ((encode (fun _ => 0) 1 [5]).set 0 (Nat.xor 5 1)) 0, 1, 0⟩
      = .ret true none ⟨.src [4, 0, 0, 0, 0] 0, 1, 0⟩ := by
  have h1 : encode (fun _ => 0) 1 [5] = [5, 0, 0, 0, 0] := by
    rw [encode_small (fun _ => 0) 1 [5] (by decide) (by decide) (by decide)]
    rfl
  refine ⟨rfl, h1, by rw [h1]; decide, ?_⟩
  rw [h1]
  decide

theorem c5_witness :
    (criVerify hPoly ⟨.src (encode hPoly 2 [10, 20, 30]) (1 * (2 + 4) + 0), 2, 0⟩
       = .ret true none ⟨.src (encode hPoly 2 [10, 20, 30]) (1 * (2 + 4) + 0), 2, 0⟩) ∧
    (criVerify hPoly
        ⟨.src ((encode hPoly 2 [10, 20, 30]).set (1 * (2 + 4) + 0) 31) (1 * (2 + 4) + 0), 2, 0⟩
       = .ret false none
           ⟨.src ((encode hPoly 2 [10, 20, 30]).set (1 * (2 + 4) + 0) 31)
              (1 * (2 + 4) + 0), 2, 0⟩) ∧
    (criVerify hPoly
        ⟨.src ((encode hPoly 2 [10, 20, 30]).set
                 (1 * (2 + 4) + (min 2 ([10, 20, 30].length - 1 * 2) + 0)) 99)
           (1 * (2 + 4) + 0), 2, 0⟩
       = .ret false none
           ⟨.src ((encode hPoly 2 [10, 20, 30]).set
                    (1 * (2 + 4) + (min 2 ([10, 20, 30].length - 1 * 2) + 0)) 99)
              (1 * (2 + 4) + 0), 2, 0⟩) :=
  ⟨(c5_verify_detection hPoly 2 1 0 [10, 20, 30] (by decide) (by decide) (by decide)).1,
   (c5_verify_detection hPoly 2 1 0 [10, 20, 30] (by decide) (by decide) (by decide)).2.1
     0 31 (by decide) (by decide),
   (c5_verify_detection hPoly 2 1 0 [10, 20, 30] (by decide) (by decide) (by decide)).2.2
     0 99 (by decide) (by decide)⟩


end Brimutil
